import Mathlib

/-!
# Verification of an LSM-tree key-value store

A shallow embedding of the repository's three components and proofs about
them:

* `MemTable` (src/memtable.rs): an in-memory sorted map (Rust `BTreeMap`)
  modelled as a strictly-sorted association list, together with the
  cumulative `size_bytes` counter.
* `SSTable` (src/sstable.rs): the on-disk sorted run.  The file is modelled
  as a list of bytes (`List Nat`); `from_memtable` mirrors the write loop
  (header = serialized record count, then serialized key/value records,
  sparse index entry every 10th record), and `get` mirrors the two-phase
  lookup (binary search over the sparse index, then a bounded linear scan).
* `LSMTree` (src/lib.rs): the coordinator owning the live memtable, the
  list of runs, the run-id counter and the configuration.

Serialization (Rust `bincode`) is abstracted as a `SerDe` structure: a
self-describing binary encoding whose deserializer consumes exactly the
bytes the serializer wrote.  `bincode::serialized_size` (which returns a
`Result` in Rust) is modelled by an arbitrary partial size function where a
claim is about its failure behaviour, and by `serSize` (the length of the
encoding) elsewhere.

File-system effects are modelled inline: an `SSTable` value carries the
bytes that `from_memtable` wrote at its path (the core never mutates or
deletes a run file, and each flush uses a fresh path, so the bytes at the
path are exactly the bytes written at creation).  A failed `File::open` at
the start of a lookup is modelled by passing `none` to `SSTable.getWith`.
-/

namespace LSM

/-- The error type of src/lib.rs (`LSMError`); payloads are dropped.
`keyNotFound` exists in the Rust enum but, as the spec states, is never
produced by any operation. -/
inductive LSMError where
  | ioErr : LSMError
  | serErr : LSMError
  | keyNotFound : LSMError
deriving DecidableEq

/-- A self-describing binary codec, the contract the repository requires of
`bincode` for its key/value/count types: encoding round-trips exactly
(`dec_enc`), a successful decode consumes precisely the bytes some encode
wrote (`dec_sound`), and every encoding is at least one byte long
(`enc_pos`; true of every bincode encoding of the order-carrying key and
value types the repository instantiates, e.g. integers and strings). -/
structure SerDe (α : Type) where
  enc : α → List Nat
  dec : List Nat → Option (α × List Nat)
  dec_enc : ∀ (a : α) (rest : List Nat), dec (enc a ++ rest) = some (a, rest)
  dec_sound : ∀ (l : List Nat) (a : α) (rest : List Nat),
    dec l = some (a, rest) → l = enc a ++ rest
  enc_pos : ∀ a : α, 0 < (enc a).length

/-- Model of `bincode::serialized_size` for an in-memory value: total, and
equal to the length of the encoding. -/
def serSize {α : Type} (s : SerDe α) : α → Option Nat :=
  fun a => some (s.enc a).length

/-! ## MemTable (src/memtable.rs) -/

/-- `MemTable<K, V>`: `data` models the `BTreeMap` as its sorted ascending
association list; `size_bytes` is the cumulative size counter. -/
structure MemTable (K V : Type) where
  data : List (K × V)
  size_bytes : Nat
deriving DecidableEq

variable {K V : Type}

/-- `MemTable::new`. -/
def MemTable.new : MemTable K V := ⟨[], 0⟩

/-- `BTreeMap::insert` on the sorted association list: inserts in key
order, replacing an equal key (last write wins). -/
def insertSorted [LinearOrder K] (k : K) (v : V) : List (K × V) → List (K × V)
  | [] => [(k, v)]
  | e :: rest =>
    if k < e.1 then (k, v) :: e :: rest
    else if k = e.1 then (k, v) :: rest
    else e :: insertSorted k v rest

/-- `MemTable::put`: computes the two serialized sizes first (each `?` may
fail with a serialization error, in which case nothing has been mutated
yet), then inserts and adds `key_size + value_size` to the counter,
returning that sum.  `szK`/`szV` model `bincode::serialized_size`. -/
def MemTable.put [LinearOrder K] (szK : K → Option Nat) (szV : V → Option Nat)
    (m : MemTable K V) (k : K) (v : V) : MemTable K V × Except LSMError Nat :=
  match szK k with
  | none => (m, .error .serErr)
  | some key_size =>
    match szV v with
    | none => (m, .error .serErr)
    | some value_size =>
      (⟨insertSorted k v m.data, m.size_bytes + (key_size + value_size)⟩,
        .ok (key_size + value_size))

/-- `BTreeMap::get` on an association list (first match; on the sorted
duplicate-free lists the memtable maintains, the only match). -/
def assocGet [DecidableEq K] : List (K × V) → K → Option V
  | [], _ => none
  | e :: rest, k => if e.1 = k then some e.2 else assocGet rest k

/-- `MemTable::get`. -/
def MemTable.get [DecidableEq K] (m : MemTable K V) (k : K) : Option V :=
  assocGet m.data k

/-- `MemTable::size`. -/
def MemTable.size (m : MemTable K V) : Nat := m.size_bytes

/-! ## SSTable (src/sstable.rs) -/

/-- `SSTable<K, V>`: `path` and the in-memory sparse `index` (each entry an
`IndexEntry { key, position }`), plus `file`, the bytes `from_memtable`
wrote at `path` (see the module comment). -/
structure SSTable (K V : Type) where
  path : String
  index : List (K × Nat)
  file : List Nat
deriving DecidableEq

/-- The body-writing loop of `SSTable::from_memtable`: for each record (at
zero-based position `i`, current byte offset `pos`) record an index entry
when `i % 10 = 0` (`INDEX_INTERVAL`), then append the serialized key and
value.  Returns (bytes written, index entries). -/
def writeEntries (sk : SerDe K) (sv : SerDe V) :
    List (K × V) → Nat → Nat → List Nat × List (K × Nat)
  | [], _, _ => ([], [])
  | e :: rest, i, pos =>
    let recBytes := sk.enc e.1 ++ sv.enc e.2
    let w := writeEntries sk sv rest (i + 1) (pos + recBytes.length)
    (recBytes ++ w.1, (if i % 10 = 0 then [(e.1, pos)] else []) ++ w.2)

/-- `SSTable::from_memtable`: writes the header (serialized entry count)
and then the records via the loop above.  IO and serialization failures do
not arise in the model (the model file system accepts all writes and `enc`
is total on in-memory values). -/
def SSTable.from_memtable (sn : SerDe Nat) (sk : SerDe K) (sv : SerDe V)
    (m : MemTable K V) (path : String) : SSTable K V :=
  let header := sn.enc m.data.length
  let w := writeEntries sk sv m.data 0 header.length
  ⟨path, w.2, header ++ w.1⟩

/-- `slice::binary_search_by` on the sparse index, modelled by its
documented contract, which on a sorted slice (the index is always sorted by
construction) determines the result uniquely: `.ok i` when entry `i`'s key
compares equal, otherwise `.error p` with `p` the insertion point.  The
accumulator `i` is the index of the list head. -/
def binSearchFrom [LinearOrder K] (k : K) : List (K × Nat) → Nat → Except Nat Nat
  | [], i => .error i
  | e :: rest, i =>
    if e.1 < k then binSearchFrom k rest (i + 1)
    else if e.1 = k then .ok i
    else .error i

/-- The guard at the head of the scan loop:
`index_pos + 1 < index.len() && position >= index[index_pos + 1].position`. -/
def boundaryHit (idx : List (K × Nat)) (ip pos : Nat) : Bool :=
  match idx[ip + 1]? with
  | some e => decide (e.2 ≤ pos)
  | none => false

/-- The linear-scan `loop` of `SSTable::get`.  `pos` is the reader's byte
offset into `file` (`stream_position`; in the model it cannot fail, so the
Rust arm that returns `Ok(None)` on a `stream_position` error is dead).
Reading at `pos` decodes `file.drop pos`; after a successful decode leaving
`rest`, the reader stands at `file.length - rest.length`.  Every
deserialization failure (corruption or end of file) inside the loop yields
`.ok none`.  `fuel` is a structural bound on the iteration count, a
modelling device only: callers pass `file.length + 1`, and under the
`SerDe` laws each iteration consumes at least one byte, so the `0` case is
never reached (the Rust loop has no such bound). -/
def scanLoop [LinearOrder K] (sk : SerDe K) (sv : SerDe V) (file : List Nat)
    (idx : List (K × Nat)) (ip : Nat) (k : K) :
    Nat → Nat → Except LSMError (Option V)
  | 0, _ => .ok none
  | fuel + 1, pos =>
    if boundaryHit idx ip pos then .ok none
    else
      match sk.dec (file.drop pos) with
      | none => .ok none
      | some (key, rest1) =>
        if key = k then
          match sv.dec (file.drop (file.length - rest1.length)) with
          | none => .ok none
          | some (v, _) => .ok (some v)
        else if k < key then .ok none
        else
          match sv.dec (file.drop (file.length - rest1.length)) with
          | none => .ok none
          | some (_, rest2) => scanLoop sk sv file idx ip k fuel (file.length - rest2.length)

/-- `SSTable::get` with the result of `File::open(&self.path)` made
explicit: `none` models an open failure (propagated as an IO error),
`some file` the opened bytes.  Then: deserialize the entry count (a `?`,
so its failure propagates); binary-search the index; on an exact match
seek to the entry's position (the Rust source seeks there twice in a row,
which is one seek semantically) and deserialize key then value (both `?`,
the decoded key being discarded); otherwise pick the scan start (insertion
point 0: right after the header; else `index[p-1].position`) and run the
scan loop.  The two `.ok none` arms for an out-of-bounds index access
model branches where the Rust indexing would panic; both are unreachable,
since `binSearchFrom` only answers positions within bounds. -/
def SSTable.getWith [LinearOrder K] (sn : SerDe Nat) (sk : SerDe K) (sv : SerDe V)
    (t : SSTable K V) (opened : Option (List Nat)) (k : K) :
    Except LSMError (Option V) :=
  match opened with
  | none => .error .ioErr
  | some file =>
    match sn.dec file with
    | none => .error .serErr
    | some (_entry_count, afterHeader) =>
      match binSearchFrom k t.index 0 with
      | .ok p =>
        match t.index[p]? with
        | none => .ok none
        | some e =>
          match sk.dec (file.drop e.2) with
          | none => .error .serErr
          | some (_key, rest1) =>
            match sv.dec (file.drop (file.length - rest1.length)) with
            | none => .error .serErr
            | some (v, _) => .ok (some v)
      | .error p =>
        let headerLen := file.length - afterHeader.length
        let ip := if p = 0 then 0 else p - 1
        let start :=
          if p = 0 then headerLen
          else
            match t.index[p - 1]? with
            | some e => e.2
            | none => headerLen
        scanLoop sk sv file t.index ip k (file.length + 1) start

/-- `SSTable::get`: open the table's own file (which holds the bytes
written at creation) and look up. -/
def SSTable.get [LinearOrder K] (sn : SerDe Nat) (sk : SerDe K) (sv : SerDe V)
    (t : SSTable K V) (k : K) : Except LSMError (Option V) :=
  SSTable.getWith sn sk sv t (some t.file) k

/-! ## LSMTree (src/lib.rs) -/

/-- `Config`. -/
structure Config where
  memtable_size_threshold : Nat
  data_dir : String
deriving DecidableEq

/-- `LSMTree<K, V>`. -/
structure LSMTree (K V : Type) where
  memtable : MemTable K V
  sstables : List (SSTable K V)
  sstable_id : Nat
  config : Config
deriving DecidableEq

/-- `LSMTree::with_config` (the `create_dir_all` side effect has no model;
it cannot fail in the model file system). -/
def LSMTree.with_config (cfg : Config) : LSMTree K V :=
  ⟨MemTable.new, [], 0, cfg⟩

/-- `{:06}`: decimal digits zero-padded on the left to width 6. -/
def pad6 (n : Nat) : String :=
  String.mk (List.replicate (6 - (toString n).length) '0') ++ toString n

/-- `format!("{}/sstable_{:06}.db", data_dir, sstable_id)`. -/
def sstablePath (dir : String) (id : Nat) : String :=
  dir ++ "/sstable_" ++ pad6 id ++ ".db"

/-- `LSMTree::flush_memtable`: swap in a fresh memtable, build an SSTable
from the displaced one at the derived path, push it at the end of the run
list, increment the id. -/
def LSMTree.flush_memtable (sn : SerDe Nat) (sk : SerDe K) (sv : SerDe V)
    (t : LSMTree K V) : LSMTree K V :=
  let old_memtable := t.memtable
  let new_sstable := SSTable.from_memtable sn sk sv old_memtable
    (sstablePath t.config.data_dir t.sstable_id)
  ⟨MemTable.new, t.sstables ++ [new_sstable], t.sstable_id + 1, t.config⟩

/-- `LSMTree::insert`: put into the memtable (propagating its error), then
flush exactly when `memtable.size() >= config.memtable_size_threshold`. -/
def LSMTree.insert [LinearOrder K] (sn : SerDe Nat) (sk : SerDe K) (sv : SerDe V)
    (t : LSMTree K V) (k : K) (v : V) : LSMTree K V × Except LSMError Unit :=
  match MemTable.put (serSize sk) (serSize sv) t.memtable k v with
  | (m, .error e) => ({ t with memtable := m }, .error e)
  | (m, .ok _) =>
    if m.size ≥ t.config.memtable_size_threshold then
      (LSMTree.flush_memtable sn sk sv { t with memtable := m }, .ok ())
    else
      ({ t with memtable := m }, .ok ())

/-- The SSTable half of `LSMTree::get`: the `for sstable in
self.sstables.iter().rev()` loop (called on the reversed list), returning
the first hit and propagating any error. -/
def tablesGet [LinearOrder K] (sn : SerDe Nat) (sk : SerDe K) (sv : SerDe V) :
    List (SSTable K V) → K → Except LSMError (Option V)
  | [], _ => .ok none
  | tb :: rest, k =>
    match SSTable.get sn sk sv tb k with
    | .error e => .error e
    | .ok (some v) => .ok (some v)
    | .ok none => tablesGet sn sk sv rest k

/-- `LSMTree::get`: memtable first, then the runs from newest to oldest. -/
def LSMTree.get [LinearOrder K] (sn : SerDe Nat) (sk : SerDe K) (sv : SerDe V)
    (t : LSMTree K V) (k : K) : Except LSMError (Option V) :=
  match MemTable.get t.memtable k with
  | some v => .ok (some v)
  | none => tablesGet sn sk sv t.sstables.reverse k

/-! ## Sequences of operations (the spec's testable properties) -/

/-- Apply a sequence of `insert` calls left to right (each keeping the
resulting state; `get` takes `&self` and returns no state, so any
interleaved `get` leaves the state unchanged). -/
def applyInserts [LinearOrder K] (sn : SerDe Nat) (sk : SerDe K) (sv : SerDe V) :
    List (K × V) → LSMTree K V → LSMTree K V
  | [], t => t
  | e :: rest, t => applyInserts sn sk sv rest (LSMTree.insert sn sk sv t e.1 e.2).1

/-- The value of the last insert for `k` in an operation sequence (later
entries win). -/
def lastVal [DecidableEq K] : List (K × V) → K → Option V
  | [], _ => none
  | e :: rest, k =>
    match lastVal rest k with
    | some v => some v
    | none => if e.1 = k then some e.2 else none

/-- Apply a sequence of `put` calls to a memtable (with the total
serialized-size functions), keeping the state. -/
def applyPuts [LinearOrder K] (sk : SerDe K) (sv : SerDe V) :
    List (K × V) → MemTable K V → MemTable K V
  | [], m => m
  | e :: rest, m =>
    applyPuts sk sv rest (MemTable.put (serSize sk) (serSize sv) m e.1 e.2).1

/-! ## A concrete codec (for witnesses): one abstract byte per value -/

/-- Encoding of a `Nat` as a single abstract byte (the byte alphabet of the
model is `Nat`). -/
def natEnc (n : Nat) : List Nat := [n]

/-- Matching decoder. -/
def natDec : List Nat → Option (Nat × List Nat)
  | [] => none
  | b :: rest => some (b, rest)

theorem natDec_natEnc (a : Nat) (rest : List Nat) : natDec (natEnc a ++ rest) = some (a, rest) := rfl

theorem natDec_sound (l : List Nat) (a : Nat) (rest : List Nat)
    (h : natDec l = some (a, rest)) : l = natEnc a ++ rest := by
  cases l with
  | nil => simp [natDec] at h
  | cons b r =>
    simp only [natDec, Option.some.injEq, Prod.mk.injEq] at h
    simp [natEnc, h.1, h.2]

theorem natEnc_pos (a : Nat) : 0 < (natEnc a).length := by simp [natEnc]

/-- A concrete `SerDe Nat` used to instantiate witnesses. -/
def natCode : SerDe Nat := ⟨natEnc, natDec, natDec_natEnc, natDec_sound, natEnc_pos⟩

/-! ## Codec facts -/

theorem SerDe.dec_nil {α : Type} (s : SerDe α) : s.dec [] = none := by
  cases h : s.dec [] with
  | none => rfl
  | some p =>
    have h2 := s.dec_sound [] p.1 p.2 (by simpa using h)
    have h3 := s.enc_pos p.1
    have h4 : s.enc p.1 = [] := (List.append_eq_nil.mp h2.symm).1
    rw [h4] at h3
    simp at h3

theorem SerDe.dec_lengths {α : Type} (s : SerDe α) {l : List Nat} {a : α}
    {rest : List Nat} (h : s.dec l = some (a, rest)) :
    l.length = (s.enc a).length + rest.length := by
  have h2 := s.dec_sound l a rest h
  rw [h2]; simp

/-- If `r` is the remainder after reading a prefix of `l`, then a reader
standing at byte `l.length - r.length` sees exactly `r`. -/
theorem drop_length_sub {α : Type} (l u r : List α) (h : l = u ++ r) :
    l.drop (l.length - r.length) = r := by
  subst h
  have : (u ++ r).length - r.length = u.length := by simp
  rw [this, List.drop_left]

/-! ## Sorted association lists -/

/-- Keys strictly ascending: the invariant of the memtable's `BTreeMap`
contents and of an SSTable's record sequence. -/
def sortedKV [LinearOrder K] (d : List (K × V)) : Prop :=
  d.Pairwise (fun a b => a.1 < b.1)

instance [LinearOrder K] (d : List (K × V)) : Decidable (sortedKV d) := by
  unfold sortedKV; infer_instance

theorem assocGet_insertSorted_self [LinearOrder K] (k : K) (v : V)
    (d : List (K × V)) : assocGet (insertSorted k v d) k = some v := by
  induction d with
  | nil => simp [insertSorted, assocGet]
  | cons e rest ih =>
    by_cases h1 : k < e.1
    · simp [insertSorted, h1, assocGet]
    · by_cases h2 : k = e.1
      · simp [insertSorted, h1, h2, assocGet]
      · have h3 : e.1 ≠ k := fun hc => h2 hc.symm
        simp [insertSorted, h1, h2, assocGet, h3, ih]

theorem assocGet_insertSorted_ne [LinearOrder K] (k k' : K) (v : V)
    (d : List (K × V)) (hne : k' ≠ k) :
    assocGet (insertSorted k v d) k' = assocGet d k' := by
  have hkk : ¬ (k = k') := fun hc => hne hc.symm
  induction d with
  | nil => simp [insertSorted, assocGet, hkk]
  | cons e rest ih =>
    by_cases h1 : k < e.1
    · simp [insertSorted, h1, assocGet, hkk]
    · by_cases h2 : k = e.1
      · have h4 : ¬ (e.1 = k') := by rw [← h2]; exact hkk
        rw [insertSorted, if_neg h1, if_pos h2]
        simp only [assocGet, if_neg hkk, if_neg h4]
      · simp only [insertSorted, if_neg h1, if_neg h2, assocGet]
        by_cases h5 : e.1 = k'
        · simp [h5]
        · simp [h5, ih]

theorem mem_insertSorted [LinearOrder K] (k : K) (v : V) (d : List (K × V))
    (x : K × V) (h : x ∈ insertSorted k v d) : x = (k, v) ∨ x ∈ d := by
  induction d with
  | nil =>
    simp only [insertSorted, List.mem_singleton] at h
    exact Or.inl h
  | cons e rest ih =>
    by_cases h1 : k < e.1
    · simp only [insertSorted, if_pos h1, List.mem_cons] at h
      rcases h with h | h | h
      · exact Or.inl h
      · exact Or.inr (by simp [h])
      · exact Or.inr (by simp [h])
    · by_cases h2 : k = e.1
      · simp only [insertSorted, if_neg h1, if_pos h2, List.mem_cons] at h
        rcases h with h | h
        · exact Or.inl h
        · exact Or.inr (by simp [h])
      · simp only [insertSorted, if_neg h1, if_neg h2, List.mem_cons] at h
        rcases h with h | h
        · exact Or.inr (by simp [h])
        · rcases ih h with h3 | h3
          · exact Or.inl h3
          · exact Or.inr (by simp [h3])

theorem sortedKV_insertSorted [LinearOrder K] (k : K) (v : V)
    (d : List (K × V)) (hd : sortedKV d) : sortedKV (insertSorted k v d) := by
  induction d with
  | nil => simp [insertSorted, sortedKV]
  | cons e rest ih =>
    rw [sortedKV, List.pairwise_cons] at hd
    by_cases h1 : k < e.1
    · rw [sortedKV, insertSorted, if_pos h1, List.pairwise_cons]
      refine ⟨?_, ?_⟩
      · intro x hx
        rcases List.mem_cons.mp hx with hx | hx
        · simpa [hx] using h1
        · exact lt_trans h1 (hd.1 x hx)
      · rw [List.pairwise_cons]
        exact hd
    · by_cases h2 : k = e.1
      · rw [sortedKV, insertSorted, if_neg h1, if_pos h2, List.pairwise_cons]
        refine ⟨?_, hd.2⟩
        intro x hx
        simpa [h2] using hd.1 x hx
      · rw [sortedKV, insertSorted, if_neg h1, if_neg h2, List.pairwise_cons]
        have h3 : e.1 < k := by
          rcases lt_trichotomy k e.1 with h | h | h
          · exact absurd h h1
          · exact absurd h h2
          · exact h
        refine ⟨?_, ih hd.2⟩
        intro x hx
        rcases mem_insertSorted k v rest x hx with h4 | h4
        · simpa [h4] using h3
        · exact hd.1 x h4

theorem assocGet_eq_none_of_forall_lt [LinearOrder K] (k : K)
    (d : List (K × V)) (h : ∀ e ∈ d, k < e.1) : assocGet d k = none := by
  induction d with
  | nil => rfl
  | cons e rest ih =>
    have h1 : e.1 ≠ k := ne_of_gt (h e (by simp))
    simp only [assocGet, if_neg h1]
    exact ih (fun x hx => h x (by simp [hx]))

theorem assocGet_of_getElem [LinearOrder K] (d : List (K × V))
    (hd : sortedKV d) (j : Nat) (hj : j < d.length) :
    assocGet d d[j].1 = some d[j].2 := by
  induction d generalizing j with
  | nil => simp at hj
  | cons e rest ih =>
    rw [sortedKV, List.pairwise_cons] at hd
    cases j with
    | zero => simp [assocGet]
    | succ j' =>
      have hj' : j' < rest.length := by simpa using hj
      have hkey : rest[j'].1 ≠ e.1 :=
        ne_of_gt (hd.1 rest[j'] (List.getElem_mem hj'))
      have h1 : e.1 ≠ (e :: rest)[j' + 1].1 := by
        simpa using fun hc => hkey hc.symm
      simp only [assocGet, if_neg h1]
      simpa using ih hd.2 j' hj'

/-- A sorted list's head key is at most every key in the list. -/
theorem sorted_head_le [LinearOrder K] (e : K × V) (rest : List (K × V))
    (hd : sortedKV (e :: rest)) (x : K × V) (hx : x ∈ e :: rest) :
    e.1 ≤ x.1 := by
  rw [sortedKV, List.pairwise_cons] at hd
  rcases List.mem_cons.mp hx with hx | hx
  · simp [hx]
  · exact le_of_lt (hd.1 x hx)

/-- Keys before position `j` are pointwise below the key at `j`. -/
theorem sorted_key_lt [LinearOrder K] (d : List (K × V)) (hd : sortedKV d)
    {m j : Nat} (hm : m < j) (hj : j < d.length) :
    (d.get (Fin.mk m (lt_trans hm hj))).1 < d[j].1 :=
  List.pairwise_iff_getElem.mp hd m j (lt_trans hm hj) hj hm

/-- `assocGet` is unchanged by dropping a prefix that does not hold the key. -/
theorem assocGet_drop [DecidableEq K] (d : List (K × V)) (k : K) (j : Nat)
    (h : ∀ m : Nat, ∀ hm : m < j, ∀ hm2 : m < d.length, d[m].1 ≠ k) :
    assocGet d k = assocGet (d.drop j) k := by
  induction j generalizing d with
  | zero => simp
  | succ j' ih =>
    cases d with
    | nil => simp
    | cons e rest =>
      have h0 : e.1 ≠ k := h 0 (Nat.succ_pos j') (by simp)
      simp only [assocGet, if_neg h0, List.drop_succ_cons]
      exact ih rest (fun m hm hm2 => h (m + 1) (by omega) (by simpa using hm2))

/-! ## File layout of a built SSTable -/

/-- The bytes of one record: serialized key then serialized value. -/
def recB (sk : SerDe K) (sv : SerDe V) (e : K × V) : List Nat :=
  sk.enc e.1 ++ sv.enc e.2

/-- The bytes of the file body: the records in buffer order. -/
def bodyB (sk : SerDe K) (sv : SerDe V) (d : List (K × V)) : List Nat :=
  (d.map (recB sk sv)).flatten

/-- The byte offset at which record `j` starts (for `j = d.length`, the end
of the file): header, then the bodies of the records before `j`. -/
def offB (sn : SerDe Nat) (sk : SerDe K) (sv : SerDe V) (d : List (K × V))
    (j : Nat) : Nat :=
  (sn.enc d.length).length + (bodyB sk sv (d.take j)).length

/-- The whole file: header (serialized record count) then body. -/
def fileB (sn : SerDe Nat) (sk : SerDe K) (sv : SerDe V) (d : List (K × V)) :
    List Nat :=
  sn.enc d.length ++ bodyB sk sv d

variable (sn : SerDe Nat) (sk : SerDe K) (sv : SerDe V)

theorem bodyB_cons (e : K × V) (d : List (K × V)) :
    bodyB sk sv (e :: d) = recB sk sv e ++ bodyB sk sv d := by
  simp [bodyB]

theorem bodyB_append (d1 d2 : List (K × V)) :
    bodyB sk sv (d1 ++ d2) = bodyB sk sv d1 ++ bodyB sk sv d2 := by
  simp [bodyB]

theorem bodyB_singleton (e : K × V) : bodyB sk sv [e] = recB sk sv e := by
  simp [bodyB]

theorem recB_pos (e : K × V) : 0 < (recB sk sv e).length := by
  have := sk.enc_pos e.1
  simp [recB]
  omega

theorem length_le_bodyB (d : List (K × V)) :
    d.length ≤ (bodyB sk sv d).length := by
  induction d with
  | nil => simp [bodyB]
  | cons e rest ih =>
    rw [bodyB_cons]
    have := recB_pos sk sv e
    simp only [List.length_append, List.length_cons]
    omega

theorem writeEntries_fst (d : List (K × V)) (i pos : Nat) :
    (writeEntries sk sv d i pos).1 = bodyB sk sv d := by
  induction d generalizing i pos with
  | nil => simp [writeEntries, bodyB]
  | cons e rest ih => simp [writeEntries, bodyB_cons, ih, recB, List.append_assoc]

theorem from_memtable_eq (d : List (K × V)) (sz : Nat) (p : String) :
    SSTable.from_memtable sn sk sv ⟨d, sz⟩ p =
      ⟨p, (writeEntries sk sv d 0 (sn.enc d.length).length).2, fileB sn sk sv d⟩ := by
  simp [SSTable.from_memtable, fileB, writeEntries_fst]

theorem offB_zero (d : List (K × V)) :
    offB sn sk sv d 0 = (sn.enc d.length).length := by
  simp [offB, bodyB]

theorem offB_succ (d : List (K × V)) (j : Nat) (hj : j < d.length) :
    offB sn sk sv d (j + 1) = offB sn sk sv d j + (recB sk sv d[j]).length := by
  rw [offB, offB, List.take_succ, List.getElem?_eq_getElem hj]
  simp only [Option.toList_some, bodyB_append, bodyB_singleton, List.length_append]
  omega

theorem offB_lt_of_lt (d : List (K × V)) (j j' : Nat) (hjj : j < j')
    (hj' : j' ≤ d.length) : offB sn sk sv d j < offB sn sk sv d j' := by
  induction j' with
  | zero => omega
  | succ j'' ih =>
    have hj'' : j'' < d.length := by omega
    rw [offB_succ sn sk sv d j'' hj'']
    have hpos := recB_pos sk sv d[j'']
    rcases Nat.lt_or_ge j j'' with h | h
    · have := ih h (by omega)
      omega
    · have hjeq : j = j'' := by omega
      subst hjeq
      omega

theorem offB_le_iff (d : List (K × V)) (j j' : Nat) (hj : j ≤ d.length)
    (hj' : j' ≤ d.length) : offB sn sk sv d j' ≤ offB sn sk sv d j ↔ j' ≤ j := by
  constructor
  · intro h
    by_contra hc
    have := offB_lt_of_lt sn sk sv d j j' (by omega) hj'
    omega
  · intro h
    rcases Nat.lt_or_ge j' j with hh | hh
    · exact le_of_lt (offB_lt_of_lt sn sk sv d j' j hh hj)
    · have hjeq : j' = j := by omega
      simp [hjeq]

theorem offB_length (d : List (K × V)) :
    offB sn sk sv d d.length = (fileB sn sk sv d).length := by
  simp [offB, fileB]

theorem fileB_drop (d : List (K × V)) (j : Nat) (hj : j ≤ d.length) :
    (fileB sn sk sv d).drop (offB sn sk sv d j) = bodyB sk sv (d.drop j) := by
  have hsplit : fileB sn sk sv d =
      (sn.enc d.length ++ bodyB sk sv (d.take j)) ++ bodyB sk sv (d.drop j) := by
    have h2 : bodyB sk sv d = bodyB sk sv (d.take j) ++ bodyB sk sv (d.drop j) := by
      conv_lhs => rw [← List.take_append_drop j d]
      rw [bodyB_append]
    rw [fileB, h2, List.append_assoc]
  rw [hsplit]
  have hlen : offB sn sk sv d j =
      (sn.enc d.length ++ bodyB sk sv (d.take j)).length := by
    simp [offB]
  rw [hlen, List.drop_left]

/-- Every index entry `writeEntries` produces is (key of record `j`, byte
offset of record `j`) for a record index `j` at an index interval point. -/
theorem writeEntries_snd_mem (d : List (K × V)) (i pos : Nat) (x : K × Nat)
    (hx : x ∈ (writeEntries sk sv d i pos).2) :
    ∃ j : Nat, ∃ hj : j < d.length, (i + j) % 10 = 0 ∧
      x = (d[j].1, pos + (bodyB sk sv (d.take j)).length) := by
  induction d generalizing i pos with
  | nil => simp [writeEntries] at hx
  | cons e rest ih =>
    rw [writeEntries] at hx
    simp only [List.mem_append] at hx
    rcases hx with hx | hx
    · have hx2 : i % 10 = 0 ∧ x = (e.1, pos) := by
        by_cases hi : i % 10 = 0
        · simp only [if_pos hi, List.mem_singleton] at hx
          exact ⟨hi, hx⟩
        · simp [if_neg hi] at hx
      refine ⟨0, by simp, by simpa using hx2.1, ?_⟩
      simp [hx2.2, bodyB]
    · obtain ⟨j, hj, hmod, hval⟩ := ih (i + 1) (pos + (recB sk sv e).length) hx
      refine ⟨j + 1, by simpa using hj, by omega, ?_⟩
      rw [hval]
      simp [List.take_cons, bodyB_cons]
      omega

/-- When the phase is at an interval point and the buffer is nonempty, the
first index entry is (first record's key, `pos`). -/
theorem writeEntries_snd_head (e : K × V) (rest : List (K × V)) (i pos : Nat)
    (hi : i % 10 = 0) :
    (writeEntries sk sv (e :: rest) i pos).2[0]? = some (e.1, pos) := by
  rw [writeEntries]
  simp [if_pos hi]

/-! ## Correctness of the linear scan -/

theorem boundaryHit_none {idx : List (K × Nat)} {ip : Nat}
    (h : idx[ip + 1]? = none) (pos : Nat) : boundaryHit idx ip pos = false := by
  simp [boundaryHit, h]

theorem boundaryHit_some {idx : List (K × Nat)} {ip : Nat} {e : K × Nat}
    (h : idx[ip + 1]? = some e) (pos : Nat) :
    boundaryHit idx ip pos = decide (e.2 ≤ pos) := by
  simp [boundaryHit, h]

/-- With `k` below every remaining key, the lookup of the remaining
records is absent. -/
theorem assocGet_drop_none [LinearOrder K] (d : List (K × V)) (hd : sortedKV d)
    (k : K) (j : Nat) (hj : j < d.length) (hk : k < d[j].1) :
    assocGet (d.drop j) k = none := by
  apply assocGet_eq_none_of_forall_lt
  intro e he
  have hdrop : d.drop j = d[j] :: d.drop (j + 1) := List.drop_eq_getElem_cons hj
  have hle : d[j].1 ≤ e.1 := by
    apply sorted_head_le d[j] (d.drop (j + 1)) _ e (hdrop ▸ he)
    rw [← hdrop]
    exact hd.drop
  exact lt_of_lt_of_le hk hle

/-- Scanning a well-formed file from the start of record `j`: if every
record before `j` has key below `k` and the next index entry (if the guard
can see one) is a record boundary whose key is above `k`, the scan returns
exactly the association-list lookup of the remaining records. -/
theorem scanLoop_correct [LinearOrder K] (sn : SerDe Nat) (sk : SerDe K)
    (sv : SerDe V) (d : List (K × V)) (hd : sortedKV d)
    (idx : List (K × Nat)) (ip : Nat) (k : K)
    (hb : idx[ip + 1]? = none ∨ ∃ jb : Nat, ∃ hjb : jb < d.length,
      idx[ip + 1]? = some (d[jb].1, offB sn sk sv d jb) ∧ k < d[jb].1) :
    ∀ (fuel j : Nat), j ≤ d.length → d.length - j < fuel →
    (∀ (m : Nat) (e : K × V), m < j → d[m]? = some e → e.1 < k) →
    scanLoop sk sv (fileB sn sk sv d) idx ip k fuel (offB sn sk sv d j)
      = .ok (assocGet (d.drop j) k) := by
  intro fuel
  induction fuel with
  | zero => intro j hj hfuel hbefore; omega
  | succ fuel ih =>
    intro j hj hfuel hbefore
    by_cases hbh : boundaryHit idx ip (offB sn sk sv d j) = true
    · -- the guard fires: the next index entry's offset has been reached
      rcases hb with hbn | ⟨jb, hjb, hbs, hbk⟩
      · rw [boundaryHit_none hbn _] at hbh
        cases hbh
      · rw [boundaryHit_some hbs _] at hbh
        have hble : offB sn sk sv d jb ≤ offB sn sk sv d j := of_decide_eq_true hbh
        have hjbj : jb ≤ j :=
          (offB_le_iff sn sk sv d j jb hj (le_of_lt hjb)).mp hble
        have hjbeq : jb = j := by
          rcases Nat.lt_or_ge jb j with hlt | hge
          · have h5 := hbefore jb d[jb] hlt (List.getElem?_eq_getElem hjb)
            exact absurd hbk (by simp [h5, le_of_lt])
          · omega
        subst hjbeq
        rw [scanLoop, if_pos (boundaryHit_some hbs _ ▸ hbh),
          assocGet_drop_none d hd k jb hjb hbk]
    · -- the guard does not fire: read the key at the current offset
      rw [scanLoop, if_neg hbh]
      rcases Nat.lt_or_ge j d.length with hjlt | hjge
      · -- a record remains: record `j` starts here
        have hdropj : d.drop j = d[j] :: d.drop (j + 1) :=
          List.drop_eq_getElem_cons hjlt
        have hbody : (fileB sn sk sv d).drop (offB sn sk sv d j) =
            sk.enc d[j].1 ++ (sv.enc d[j].2 ++ bodyB sk sv (d.drop (j + 1))) := by
          rw [fileB_drop sn sk sv d j hj, hdropj, bodyB_cons, recB,
            List.append_assoc]
        have hdec : sk.dec ((fileB sn sk sv d).drop (offB sn sk sv d j)) =
            some (d[j].1, sv.enc d[j].2 ++ bodyB sk sv (d.drop (j + 1))) := by
          rw [hbody, sk.dec_enc]
        rw [hdec]
        dsimp only
        have hsplit : fileB sn sk sv d =
            ((fileB sn sk sv d).take (offB sn sk sv d j) ++ sk.enc d[j].1) ++
              (sv.enc d[j].2 ++ bodyB sk sv (d.drop (j + 1))) := by
          conv_lhs =>
            rw [← List.take_append_drop (offB sn sk sv d j) (fileB sn sk sv d)]
          rw [hbody, List.append_assoc]
        have hdrop1 := drop_length_sub _ _ _ hsplit
        rw [hdrop1, sv.dec_enc]
        dsimp only
        by_cases hkey : d[j].1 = k
        · rw [if_pos hkey, hdropj]
          simp [assocGet, hkey]
        · rw [if_neg hkey]
          by_cases hklt : k < d[j].1
          · rw [if_pos hklt, assocGet_drop_none d hd k j hjlt hklt]
          · rw [if_neg hklt]
            -- record `j`'s key is below `k`: skip the value, move to `j + 1`
            have hlt2 : d[j].1 < k := by
              rcases lt_trichotomy d[j].1 k with h | h | h
              · exact h
              · exact absurd h hkey
              · exact absurd h hklt
            have hnext : (fileB sn sk sv d).length -
                (bodyB sk sv (d.drop (j + 1))).length = offB sn sk sv d (j + 1) := by
              have h1 : (fileB sn sk sv d).drop (offB sn sk sv d (j + 1)) =
                  bodyB sk sv (d.drop (j + 1)) :=
                fileB_drop sn sk sv d (j + 1) (by omega)
              have h2 : offB sn sk sv d (j + 1) ≤ (fileB sn sk sv d).length := by
                rw [← offB_length sn sk sv d]
                rcases Nat.lt_or_ge (j + 1) d.length with hh | hh
                · exact le_of_lt (offB_lt_of_lt sn sk sv d (j + 1) d.length hh
                    (le_refl _))
                · have : j + 1 = d.length := by omega
                  simp [this]
              have h3 := congrArg List.length h1
              rw [List.length_drop] at h3
              omega
            rw [hnext]
            have hrec := ih (j + 1) (by omega) (by omega) ?_
            · rw [hrec, hdropj]
              simp [assocGet, hkey]
            · intro m e hm he
              rcases Nat.lt_or_ge m j with hmj | hmj
              · exact hbefore m e hmj he
              · have hmeq : m = j := by omega
                subst hmeq
                rw [List.getElem?_eq_getElem hjlt] at he
                cases he
                exact hlt2
      · -- past the last record: at end of file, the key read fails
        have hjeq : j = d.length := by omega
        subst hjeq
        have hdec : sk.dec ((fileB sn sk sv d).drop
            (offB sn sk sv d d.length)) = none := by
          rw [fileB_drop sn sk sv d d.length (le_refl _)]
          simp [bodyB, SerDe.dec_nil]
        rw [hdec]
        dsimp only
        simp [assocGet]

/-! ## Correctness of SSTable.get on a built table -/

/-- Every index entry of a table built at the standard header offset is
(key of record `j`, `offB j`) for some record `j`. -/
theorem index_entry_valid (d : List (K × V)) (x : K × Nat)
    (hx : x ∈ (writeEntries sk sv d 0 (sn.enc d.length).length).2) :
    ∃ j : Nat, ∃ hj : j < d.length, x = (d[j].1, offB sn sk sv d j) := by
  obtain ⟨j, hj, _hmod, hval⟩ := writeEntries_snd_mem sk sv d 0 _ x hx
  exact ⟨j, hj, by rw [hval]; rfl⟩

/-! ## Binary-search characterization

`binSearchFrom` models `slice::binary_search_by`; these lemmas read off its
result on any index list. -/

theorem binSearchFrom_ok [LinearOrder K] (k : K) (l : List (K × Nat))
    (i p : Nat) (h : binSearchFrom k l i = .ok p) :
    i ≤ p ∧ ∃ e, l[p - i]? = some e ∧ e.1 = k := by
  induction l generalizing i with
  | nil => simp [binSearchFrom] at h
  | cons e rest ih =>
    by_cases h1 : e.1 < k
    · rw [binSearchFrom, if_pos h1] at h
      obtain ⟨hip, e', he', hk⟩ := ih (i + 1) h
      refine ⟨by omega, e', ?_, hk⟩
      have : p - i = (p - (i + 1)) + 1 := by omega
      rw [this]
      simpa using he'
    · by_cases h2 : e.1 = k
      · rw [binSearchFrom, if_neg h1, if_pos h2] at h
        cases h
        exact ⟨le_refl _, e, by simp, h2⟩
      · rw [binSearchFrom, if_neg h1, if_neg h2] at h
        cases h

theorem binSearchFrom_err [LinearOrder K] (k : K) (l : List (K × Nat))
    (i p : Nat) (h : binSearchFrom k l i = .error p) :
    i ≤ p ∧ p - i ≤ l.length ∧
      (∀ m : Nat, ∀ e : K × Nat, m < p - i → l[m]? = some e → e.1 < k) ∧
      (∀ e : K × Nat, l[p - i]? = some e → k < e.1) := by
  induction l generalizing i with
  | nil =>
    rw [binSearchFrom] at h
    cases h
    exact ⟨le_refl _, by simp, by simp, by simp⟩
  | cons e rest ih =>
    by_cases h1 : e.1 < k
    · rw [binSearchFrom, if_pos h1] at h
      obtain ⟨hip, hlen, hbelow, hat⟩ := ih (i + 1) h
      have hpi : p - i = (p - (i + 1)) + 1 := by omega
      refine ⟨by omega, by simp; omega, ?_, ?_⟩
      · intro m e' hm he'
        cases m with
        | zero => simp at he'; rw [← he']; exact h1
        | succ m' =>
          refine hbelow m' e' (by omega) ?_
          simpa using he'
      · intro e' he'
        rw [hpi] at he'
        exact hat e' (by simpa using he')
    · by_cases h2 : e.1 = k
      · rw [binSearchFrom, if_neg h1, if_pos h2] at h
        cases h
      · rw [binSearchFrom, if_neg h1, if_neg h2] at h
        cases h
        have h3 : k < e.1 := by
          rcases lt_trichotomy e.1 k with hh | hh | hh
          · exact absurd hh h1
          · exact absurd hh h2
          · exact hh
        refine ⟨le_refl _, by simp, by simp, ?_⟩
        intro e' he'
        simp at he'
        rw [← he']
        exact h3

/-- `SSTable::get` on a table built from a sorted buffer is exactly the
association-list lookup of the buffer's contents. -/
theorem sstable_get_eq [LinearOrder K] (sn : SerDe Nat) (sk : SerDe K)
    (sv : SerDe V) (d : List (K × V)) (hd : sortedKV d) (sz : Nat)
    (p : String) (k : K) :
    SSTable.get sn sk sv (SSTable.from_memtable sn sk sv ⟨d, sz⟩ p) k =
      .ok (assocGet d k) := by
  rw [from_memtable_eq]
  rw [SSTable.get, SSTable.getWith]
  dsimp only
  have hdecn : sn.dec (fileB sn sk sv d) = some (d.length, bodyB sk sv d) := by
    rw [fileB, sn.dec_enc]
  rw [hdecn]
  dsimp only
  have hheader : (fileB sn sk sv d).length - (bodyB sk sv d).length =
      (sn.enc d.length).length := by
    simp [fileB]
  have hfuel : d.length ≤ (fileB sn sk sv d).length := by
    have h1 := length_le_bodyB sk sv d
    simp only [fileB, List.length_append]
    omega
  cases hbs : binSearchFrom k
      (writeEntries sk sv d 0 (sn.enc d.length).length).2 0 with
  | ok p2 =>
    -- exact index hit: seek to the entry's offset and read key then value
    obtain ⟨_hip, e, he, hek⟩ := binSearchFrom_ok k _ 0 p2 hbs
    rw [Nat.sub_zero] at he
    dsimp only
    rw [he]
    dsimp only
    obtain ⟨j, hj, hval⟩ := index_entry_valid sn sk sv d e (List.getElem?_mem he)
    have he2 : e.2 = offB sn sk sv d j := by rw [hval]
    have hkey : d[j].1 = k := by rw [hval] at hek; exact hek
    have hdropj : d.drop j = d[j] :: d.drop (j + 1) :=
      List.drop_eq_getElem_cons hj
    have hbody : (fileB sn sk sv d).drop (offB sn sk sv d j) =
        sk.enc d[j].1 ++ (sv.enc d[j].2 ++ bodyB sk sv (d.drop (j + 1))) := by
      rw [fileB_drop sn sk sv d j (le_of_lt hj), hdropj, bodyB_cons, recB,
        List.append_assoc]
    have hdeck : sk.dec ((fileB sn sk sv d).drop e.2) =
        some (d[j].1, sv.enc d[j].2 ++ bodyB sk sv (d.drop (j + 1))) := by
      rw [he2, hbody, sk.dec_enc]
    rw [hdeck]
    dsimp only
    have hsplit : fileB sn sk sv d =
        ((fileB sn sk sv d).take (offB sn sk sv d j) ++ sk.enc d[j].1) ++
          (sv.enc d[j].2 ++ bodyB sk sv (d.drop (j + 1))) := by
      conv_lhs =>
        rw [← List.take_append_drop (offB sn sk sv d j) (fileB sn sk sv d)]
      rw [hbody, List.append_assoc]
    have hdrop1 := drop_length_sub _ _ _ hsplit
    rw [hdrop1, sv.dec_enc]
    dsimp only
    rw [← hkey, assocGet_of_getElem d hd j hj]
  | error p2 =>
    -- no index hit: pick the scan start from the insertion point
    obtain ⟨_hip, hlen, hbelow, hat⟩ := binSearchFrom_err k _ 0 p2 hbs
    rw [Nat.sub_zero] at hlen hbelow hat
    dsimp only
    rw [hheader]
    by_cases hp0 : p2 = 0
    · -- insertion point 0: scan immediately after the header
      subst hp0
      rw [if_pos rfl, if_pos rfl]
      have hb : (writeEntries sk sv d 0
            (sn.enc d.length).length).2[0 + 1]? = none ∨
          ∃ jb : Nat, ∃ hjb : jb < d.length,
            (writeEntries sk sv d 0 (sn.enc d.length).length).2[0 + 1]? =
              some (d[jb].1, offB sn sk sv d jb) ∧ k < d[jb].1 := by
        cases hb1 : (writeEntries sk sv d 0
            (sn.enc d.length).length).2[0 + 1]? with
        | none => exact Or.inl rfl
        | some e1 =>
          obtain ⟨j1, hj1, hval1⟩ :=
            index_entry_valid sn sk sv d e1 (List.getElem?_mem hb1)
          refine Or.inr ⟨j1, hj1, by rw [← hval1], ?_⟩
          cases d with
          | nil => simp at hj1
          | cons d0 rest =>
            have hidx0 := writeEntries_snd_head sk sv d0 rest 0
              (sn.enc (d0 :: rest).length).length (by simp)
            have hk0 : k < d0.1 := by
              have := hat (d0.1, (sn.enc (d0 :: rest).length).length) hidx0
              simpa using this
            have hle : d0.1 ≤ (d0 :: rest)[j1].1 :=
              sorted_head_le d0 rest hd (d0 :: rest)[j1]
                (List.getElem_mem hj1)
            exact lt_of_lt_of_le hk0 hle
      have hscan := scanLoop_correct sn sk sv d hd
        ((writeEntries sk sv d 0 (sn.enc d.length).length).2) 0 k hb
        ((fileB sn sk sv d).length + 1) 0 (Nat.zero_le _) (by omega) (by omega)
      simpa [offB_zero] using hscan
    · -- insertion point p2 > 0: scan from index[p2-1].position
      rw [if_neg hp0, if_neg hp0]
      have hplt : p2 - 1 < ((writeEntries sk sv d 0
          (sn.enc d.length).length).2).length := by omega
      cases he1 : (writeEntries sk sv d 0
          (sn.enc d.length).length).2[p2 - 1]? with
      | none =>
        rw [List.getElem?_eq_getElem hplt] at he1
        cases he1
      | some e1 =>
        dsimp only
        obtain ⟨j1, hj1, hval1⟩ := index_entry_valid sn sk sv d e1
          (List.getElem?_mem he1)
        have hkey1 : d[j1].1 < k := by
          have h2 := hbelow (p2 - 1) e1 (by omega) he1
          rw [hval1] at h2
          exact h2
        have hval2 : e1.2 = offB sn sk sv d j1 := by rw [hval1]
        rw [hval2]
        have hipeq : p2 - 1 + 1 = p2 := by omega
        have hb : (writeEntries sk sv d 0
              (sn.enc d.length).length).2[p2 - 1 + 1]? = none ∨
            ∃ jb : Nat, ∃ hjb : jb < d.length,
              (writeEntries sk sv d 0 (sn.enc d.length).length).2[p2 - 1 + 1]? =
                some (d[jb].1, offB sn sk sv d jb) ∧ k < d[jb].1 := by
          cases hb1 : (writeEntries sk sv d 0
              (sn.enc d.length).length).2[p2 - 1 + 1]? with
          | none => exact Or.inl rfl
          | some e2 =>
            obtain ⟨j2, hj2, hval3⟩ :=
              index_entry_valid sn sk sv d e2 (List.getElem?_mem hb1)
            refine Or.inr ⟨j2, hj2, by rw [← hval3], ?_⟩
            have h3 := hat e2 (by rw [← hipeq]; exact hb1)
            rw [hval3] at h3
            exact h3
        have hbefore : ∀ (m : Nat) (e3 : K × V), m < j1 → d[m]? = some e3 →
            e3.1 < k := by
          intro m e3 hm he3
          obtain ⟨hm2, he4⟩ := List.getElem?_eq_some.mp he3
          rw [← he4]
          exact lt_trans (sorted_key_lt d hd hm hj1) hkey1
        have hdropeq : assocGet d k = assocGet (d.drop j1) k := by
          apply assocGet_drop
          intro m hm hm2
          exact ne_of_lt (lt_trans (sorted_key_lt d hd hm hj1) hkey1)
        rw [scanLoop_correct sn sk sv d hd _ (p2 - 1) k hb
          ((fileB sn sk sv d).length + 1) j1 (le_of_lt hj1) (by omega) hbefore,
          ← hdropeq]

/-! ## The store invariant and the abstraction of a state -/

/-- A run as the store creates them: built by `from_memtable` from a sorted
buffer. -/
def GoodTable [LinearOrder K] (sn : SerDe Nat) (sk : SerDe K) (sv : SerDe V)
    (s : SSTable K V) : Prop :=
  ∃ d : List (K × V), ∃ sz : Nat, ∃ p : String,
    sortedKV d ∧ s = SSTable.from_memtable sn sk sv ⟨d, sz⟩ p

/-- The key→value view of a single run (its `get` result, absent on
error). -/
def sAbs [LinearOrder K] (sn : SerDe Nat) (sk : SerDe K) (sv : SerDe V)
    (s : SSTable K V) (k : K) : Option V :=
  match SSTable.get sn sk sv s k with
  | .ok o => o
  | .error _ => none

/-- First hit over a list of runs (reversed by the caller, so newestticks
first). -/
def firstHit [LinearOrder K] (sn : SerDe Nat) (sk : SerDe K) (sv : SerDe V) :
    List (SSTable K V) → K → Option V
  | [], _ => none
  | s :: rest, k =>
    match sAbs sn sk sv s k with
    | some v => some v
    | none => firstHit sn sk sv rest k

/-- The key→value view of a whole store state: live buffer first, then the
runs from newest to oldest. -/
def lookupState [LinearOrder K] (sn : SerDe Nat) (sk : SerDe K) (sv : SerDe V)
    (t : LSMTree K V) (k : K) : Option V :=
  match assocGet t.memtable.data k with
  | some v => some v
  | none => firstHit sn sk sv t.sstables.reverse k

/-- Invariant of every reachable store state: the buffer is sorted and
every run was built from a sorted buffer. -/
def Inv [LinearOrder K] (sn : SerDe Nat) (sk : SerDe K) (sv : SerDe V)
    (t : LSMTree K V) : Prop :=
  sortedKV t.memtable.data ∧ ∀ s ∈ t.sstables, GoodTable sn sk sv s

theorem good_get [LinearOrder K] (sn : SerDe Nat) (sk : SerDe K) (sv : SerDe V)
    (s : SSTable K V) (hs : GoodTable sn sk sv s) (k : K) :
    SSTable.get sn sk sv s k = .ok (sAbs sn sk sv s k) := by
  obtain ⟨d, sz, p, hsort, hval⟩ := hs
  rw [sAbs, hval, sstable_get_eq sn sk sv d hsort sz p k]

theorem sAbs_built [LinearOrder K] (sn : SerDe Nat) (sk : SerDe K)
    (sv : SerDe V) (m : MemTable K V) (hd : sortedKV m.data) (p : String)
    (k : K) :
    sAbs sn sk sv (SSTable.from_memtable sn sk sv m p) k = assocGet m.data k := by
  rw [sAbs,
    show SSTable.from_memtable sn sk sv m p =
      SSTable.from_memtable sn sk sv ⟨m.data, m.size_bytes⟩ p from rfl,
    sstable_get_eq sn sk sv m.data hd m.size_bytes p k]

theorem tablesGet_eq [LinearOrder K] (sn : SerDe Nat) (sk : SerDe K)
    (sv : SerDe V) (l : List (SSTable K V))
    (hl : ∀ s ∈ l, GoodTable sn sk sv s) (k : K) :
    tablesGet sn sk sv l k = .ok (firstHit sn sk sv l k) := by
  induction l with
  | nil => rfl
  | cons s rest ih =>
    rw [tablesGet, good_get sn sk sv s (hl s (by simp)) k]
    rw [firstHit]
    cases hv : sAbs sn sk sv s k with
    | some v => dsimp only
    | none =>
      dsimp only
      exact ih (fun x hx => hl x (by simp [hx]))

theorem LSMTree_get_eq [LinearOrder K] (sn : SerDe Nat) (sk : SerDe K)
    (sv : SerDe V) (t : LSMTree K V) (hInv : Inv sn sk sv t) (k : K) :
    LSMTree.get sn sk sv t k = .ok (lookupState sn sk sv t k) := by
  rw [LSMTree.get, lookupState, MemTable.get]
  cases hv : assocGet t.memtable.data k with
  | some v => dsimp only
  | none =>
    dsimp only
    exact tablesGet_eq sn sk sv t.sstables.reverse
      (fun x hx => hInv.2 x (List.mem_reverse.mp hx)) k

/-! ## The effect of one insert on the abstraction -/

/-- The memtable after a `put` with the total serialized-size functions. -/
def memAfterPut [LinearOrder K] (sk : SerDe K) (sv : SerDe V) (m : MemTable K V) (k : K)
    (v : V) : MemTable K V :=
  ⟨insertSorted k v m.data, m.size_bytes + ((sk.enc k).length + (sv.enc v).length)⟩

theorem put_total_eq [LinearOrder K] (sk : SerDe K) (sv : SerDe V)
    (m : MemTable K V) (k : K) (v : V) :
    MemTable.put (serSize sk) (serSize sv) m k v =
      (memAfterPut sk sv m k v, .ok ((sk.enc k).length + (sv.enc v).length)) := rfl

/-- `insert` in closed form: put into the buffer, then flush exactly when
the counter has reached the threshold. -/
theorem insert_total_eq [LinearOrder K] (sn : SerDe Nat) (sk : SerDe K)
    (sv : SerDe V) (t : LSMTree K V) (k : K) (v : V) :
    LSMTree.insert sn sk sv t k v =
      (if (memAfterPut sk sv t.memtable k v).size ≥ t.config.memtable_size_threshold
        then (LSMTree.flush_memtable sn sk sv { t with memtable := memAfterPut sk sv t.memtable k v }, .ok ())
        else ({ t with memtable := memAfterPut sk sv t.memtable k v }, .ok ())) := rfl

theorem Inv_flush [LinearOrder K] (sn : SerDe Nat) (sk : SerDe K) (sv : SerDe V)
    (t : LSMTree K V) (hInv : Inv sn sk sv t) :
    Inv sn sk sv (LSMTree.flush_memtable sn sk sv t) := by
  constructor
  · simp [LSMTree.flush_memtable, MemTable.new, sortedKV]
  · intro s hs
    simp only [LSMTree.flush_memtable, List.mem_append, List.mem_singleton] at hs
    rcases hs with hs | hs
    · exact hInv.2 s hs
    · exact ⟨t.memtable.data, t.memtable.size_bytes, _, hInv.1, by rw [hs]⟩

theorem lookupState_flush [LinearOrder K] (sn : SerDe Nat) (sk : SerDe K)
    (sv : SerDe V) (t : LSMTree K V) (hInv : Inv sn sk sv t) (k : K) :
    lookupState sn sk sv (LSMTree.flush_memtable sn sk sv t) k =
      lookupState sn sk sv t k := by
  rw [lookupState, lookupState]
  simp only [LSMTree.flush_memtable, MemTable.new]
  rw [show assocGet ([] : List (K × V)) k = none from rfl]
  dsimp only
  rw [List.reverse_append, List.reverse_singleton, List.singleton_append]
  rw [firstHit]
  rw [sAbs_built sn sk sv t.memtable hInv.1]

theorem lookupState_insert [LinearOrder K] (sn : SerDe Nat) (sk : SerDe K)
    (sv : SerDe V) (t : LSMTree K V) (hInv : Inv sn sk sv t) (k : K) (v : V)
    (k' : K) :
    lookupState sn sk sv (LSMTree.insert sn sk sv t k v).1 k' =
      (if k' = k then some v else lookupState sn sk sv t k') := by
  have hmid : ∀ (m2 : MemTable K V), m2.data = insertSorted k v t.memtable.data →
      lookupState sn sk sv { t with memtable := m2 } k' =
        (if k' = k then some v else lookupState sn sk sv t k') := by
    intro m2 hm2
    rw [lookupState, lookupState]
    dsimp only
    rw [hm2]
    by_cases hk : k' = k
    · rw [if_pos hk, hk, assocGet_insertSorted_self k v t.memtable.data]
    · rw [assocGet_insertSorted_ne k k' v t.memtable.data hk, if_neg hk]
  rw [insert_total_eq]
  by_cases hth : (memAfterPut sk sv t.memtable k v).size ≥
      t.config.memtable_size_threshold
  · rw [if_pos hth]
    dsimp only
    have hInv2 : Inv sn sk sv { t with memtable := memAfterPut sk sv t.memtable k v } :=
      ⟨sortedKV_insertSorted k v t.memtable.data hInv.1, hInv.2⟩
    rw [lookupState_flush sn sk sv _ hInv2 k']
    exact hmid (memAfterPut sk sv t.memtable k v) rfl
  · rw [if_neg hth]
    dsimp only
    exact hmid (memAfterPut sk sv t.memtable k v) rfl

theorem Inv_insert [LinearOrder K] (sn : SerDe Nat) (sk : SerDe K)
    (sv : SerDe V) (t : LSMTree K V) (hInv : Inv sn sk sv t) (k : K) (v : V) :
    Inv sn sk sv (LSMTree.insert sn sk sv t k v).1 := by
  rw [insert_total_eq]
  have hInv2 : Inv sn sk sv { t with memtable := memAfterPut sk sv t.memtable k v } :=
    ⟨sortedKV_insertSorted k v t.memtable.data hInv.1, hInv.2⟩
  by_cases hth : (memAfterPut sk sv t.memtable k v).size ≥
      t.config.memtable_size_threshold
  · rw [if_pos hth]
    exact Inv_flush sn sk sv _ hInv2
  · rw [if_neg hth]
    exact hInv2

/-! ## Whole insert sequences -/

theorem applyInserts_spec [LinearOrder K] (sn : SerDe Nat) (sk : SerDe K)
    (sv : SerDe V) (ops : List (K × V)) :
    ∀ t : LSMTree K V, Inv sn sk sv t →
      Inv sn sk sv (applyInserts sn sk sv ops t) ∧
      ∀ k : K, lookupState sn sk sv (applyInserts sn sk sv ops t) k =
        (match lastVal ops k with
          | some v => some v
          | none => lookupState sn sk sv t k) := by
  induction ops with
  | nil => intro t hInv; exact ⟨hInv, fun _ => rfl⟩
  | cons e rest ih =>
    intro t hInv
    rw [applyInserts]
    obtain ⟨ih1, ih2⟩ := ih (LSMTree.insert sn sk sv t e.1 e.2).1
      (Inv_insert sn sk sv t hInv e.1 e.2)
    refine ⟨ih1, fun k => ?_⟩
    rw [ih2 k, lastVal]
    cases lastVal rest k with
    | some v => rfl
    | none =>
      dsimp only
      rw [lookupState_insert sn sk sv t hInv e.1 e.2 k]
      by_cases hk : e.1 = k
      · rw [if_pos hk, if_pos hk.symm]
      · rw [if_neg hk, if_neg (fun hc => hk hc.symm)]

/-! ## Error-shape facts -/

/-- The scan loop only ever returns `.ok`: every in-scan failure becomes an
explicit result, never an error. -/
theorem scanLoop_isOk [LinearOrder K] (sk : SerDe K) (sv : SerDe V)
    (file : List Nat) (idx : List (K × Nat)) (ip : Nat) (k : K) :
    ∀ fuel pos : Nat, ∃ r : Option V,
      scanLoop sk sv file idx ip k fuel pos = .ok r := by
  intro fuel
  induction fuel with
  | zero => intro pos; exact ⟨none, rfl⟩
  | succ fuel ih =>
    intro pos
    rw [scanLoop]
    by_cases hbh : boundaryHit idx ip pos = true
    · rw [if_pos hbh]; exact ⟨none, rfl⟩
    · rw [if_neg hbh]
      cases hdk : sk.dec (file.drop pos) with
      | none => exact ⟨none, rfl⟩
      | some kr =>
        dsimp only
        by_cases hkey : kr.1 = k
        · rw [if_pos hkey]
          cases hdv : sv.dec (file.drop (file.length - kr.2.length)) with
          | none => exact ⟨none, rfl⟩
          | some vr => exact ⟨some vr.1, rfl⟩
        · rw [if_neg hkey]
          by_cases hklt : k < kr.1
          · rw [if_pos hklt]; exact ⟨none, rfl⟩
          · rw [if_neg hklt]
            cases hdv : sv.dec (file.drop (file.length - kr.2.length)) with
            | none => exact ⟨none, rfl⟩
            | some vr => exact ih (file.length - vr.2.length)

/-- `SSTable::get` (with any open result) never produces the `KeyNotFound`
variant. -/
theorem getWith_ne_keyNotFound [LinearOrder K] (sn : SerDe Nat) (sk : SerDe K)
    (sv : SerDe V) (s : SSTable K V) (fo : Option (List Nat)) (k : K) :
    SSTable.getWith sn sk sv s fo k ≠ .error .keyNotFound := by
  rw [SSTable.getWith.eq_def]
  cases fo with
  | none => simp
  | some file =>
    dsimp only
    cases hdn : sn.dec file with
    | none => simp
    | some cr =>
      dsimp only
      cases hbs : binSearchFrom k s.index 0 with
      | ok p =>
        dsimp only
        cases hip : s.index[p]? with
        | none => simp
        | some e =>
          dsimp only
          cases hdk : sk.dec (file.drop e.2) with
          | none => simp
          | some kr =>
            dsimp only
            cases hdv : sv.dec (file.drop (file.length - kr.2.length)) with
            | none => simp
            | some vr => simp
      | error p =>
        dsimp only
        obtain ⟨r, hr⟩ := scanLoop_isOk sk sv file s.index
          (if p = 0 then 0 else p - 1) k (file.length + 1)
          (if p = 0 then file.length - cr.2.length
            else
              match s.index[p - 1]? with
              | some e => e.2
              | none => file.length - cr.2.length)
        rw [hr]
        simp

theorem tablesGet_ne_keyNotFound [LinearOrder K] (sn : SerDe Nat)
    (sk : SerDe K) (sv : SerDe V) (l : List (SSTable K V)) (k : K) :
    tablesGet sn sk sv l k ≠ .error .keyNotFound := by
  induction l with
  | nil => simp [tablesGet]
  | cons s rest ih =>
    rw [tablesGet]
    cases hg : SSTable.get sn sk sv s k with
    | error e =>
      dsimp only
      intro hc
      injection hc with hc2
      rw [hc2] at hg
      exact getWith_ne_keyNotFound sn sk sv s (some s.file) k hg
    | ok o =>
      cases o with
      | some v => simp
      | none => exact ih

/-! ## Size accounting over put sequences -/

theorem applyPuts_size [LinearOrder K] (sk : SerDe K) (sv : SerDe V)
    (ops : List (K × V)) :
    ∀ m : MemTable K V, (applyPuts sk sv ops m).size_bytes =
      m.size_bytes +
        (ops.map (fun e => (sk.enc e.1).length + (sv.enc e.2).length)).sum := by
  induction ops with
  | nil => intro m; simp [applyPuts]
  | cons e rest ih =>
    intro m
    rw [applyPuts, put_total_eq, ih]
    simp [memAfterPut]
    omega

/-! ## Run-id versus run-count -/

theorem insert_id_eq_len [LinearOrder K] (sn : SerDe Nat) (sk : SerDe K)
    (sv : SerDe V) (t : LSMTree K V) (k : K) (v : V)
    (h : t.sstable_id = t.sstables.length) :
    (LSMTree.insert sn sk sv t k v).1.sstable_id =
      (LSMTree.insert sn sk sv t k v).1.sstables.length := by
  rw [insert_total_eq]
  by_cases hth : (memAfterPut sk sv t.memtable k v).size ≥
      t.config.memtable_size_threshold
  · rw [if_pos hth]
    simp [LSMTree.flush_memtable, h]
  · rw [if_neg hth]
    simpa using h

theorem applyInserts_id_eq_len [LinearOrder K] (sn : SerDe Nat) (sk : SerDe K)
    (sv : SerDe V) (ops : List (K × V)) :
    ∀ t : LSMTree K V, t.sstable_id = t.sstables.length →
      (applyInserts sn sk sv ops t).sstable_id =
        (applyInserts sn sk sv ops t).sstables.length := by
  induction ops with
  | nil => intro t h; exact h
  | cons e rest ih =>
    intro t h
    rw [applyInserts]
    exact ih _ (insert_id_eq_len sn sk sv t e.1 e.2 h)

/-! ## The claims -/

/-- C1: For every sequence of insert calls on a Store (with any threshold,
so any number of flushes interleaved), a subsequent get for a key returns
Some(v) where v is the value of the last insert made for that key, and
returns None for a key never inserted: the live buffer shadows all runs
and a newer run shadows an older one. -/
theorem lsm_get_returns_last_insert [LinearOrder K] (sn : SerDe Nat)
    (sk : SerDe K) (sv : SerDe V) (ops : List (K × V)) (cfg : Config) (k : K) :
    LSMTree.get sn sk sv
        (applyInserts sn sk sv ops (LSMTree.with_config cfg : LSMTree K V)) k =
      .ok (lastVal ops k) := by
  have hInv0 : Inv sn sk sv (LSMTree.with_config cfg : LSMTree K V) := by
    constructor
    · simp [LSMTree.with_config, MemTable.new, sortedKV]
    · intro s hs
      simp [LSMTree.with_config] at hs
  obtain ⟨hInv, hlook⟩ := applyInserts_spec sn sk sv ops _ hInv0
  rw [LSMTree_get_eq sn sk sv _ hInv k, hlook k]
  cases lastVal ops k with
  | some v => rfl
  | none => rfl

/-- C2: For every Sorted Run built from a buffer of N records (N >= 0,
including N = 0), lookup returns Ok of exactly what the buffer's own get
returns: Some of the buffer's value for every key present, None (without
error) for every key absent. -/
theorem run_lookup_matches_buffer [LinearOrder K] (sn : SerDe Nat)
    (sk : SerDe K) (sv : SerDe V) (m : MemTable K V) (hd : sortedKV m.data)
    (p : String) (k : K) :
    SSTable.get sn sk sv (SSTable.from_memtable sn sk sv m p) k =
      .ok (MemTable.get m k) := by
  rw [MemTable.get,
    show SSTable.from_memtable sn sk sv m p =
      SSTable.from_memtable sn sk sv ⟨m.data, m.size_bytes⟩ p from rfl,
    sstable_get_eq sn sk sv m.data hd m.size_bytes p k]

/-- Witness for C2 at a concrete two-record buffer: the present key 3 is
found with its value, the absent keys 2 and 4 report absence. -/
theorem run_lookup_matches_buffer_witness :
    SSTable.get natCode natCode natCode
        (SSTable.from_memtable natCode natCode natCode
          (⟨[(1, 10), (3, 30)], 4⟩ : MemTable Nat Nat) "w") 3 = .ok (some 30) ∧
    SSTable.get natCode natCode natCode
        (SSTable.from_memtable natCode natCode natCode
          (⟨[(1, 10), (3, 30)], 4⟩ : MemTable Nat Nat) "w") 4 = .ok none := by
  constructor
  · exact run_lookup_matches_buffer natCode natCode natCode
      (⟨[(1, 10), (3, 30)], 4⟩ : MemTable Nat Nat) (by decide) "w" 3
  · exact run_lookup_matches_buffer natCode natCode natCode
      (⟨[(1, 10), (3, 30)], 4⟩ : MemTable Nat Nat) (by decide) "w" 4

/-- C3: during a run lookup's linear scan, every deserialization failure or
end-of-file (reading the key, or reading the value whatever the key
comparison would be) yields `Ok(None)` — the scan only ever returns `.ok` —
whereas a failure to open the file at the start of the lookup is propagated
as an IO error. -/
theorem scan_failures_downgraded [LinearOrder K] (sn : SerDe Nat)
    (sk : SerDe K) (sv : SerDe V) :
    (∀ (file : List Nat) (idx : List (K × Nat)) (ip : Nat) (k : K)
        (fuel pos : Nat), ∃ r : Option V,
        scanLoop sk sv file idx ip k fuel pos = .ok r) ∧
    (∀ (file : List Nat) (idx : List (K × Nat)) (ip : Nat) (k : K)
        (fuel pos : Nat), boundaryHit idx ip pos = false →
        sk.dec (file.drop pos) = none →
        scanLoop sk sv file idx ip k (fuel + 1) pos = .ok none) ∧
    (∀ (file : List Nat) (idx : List (K × Nat)) (ip : Nat) (k : K)
        (fuel pos : Nat) (key : K) (rest1 : List Nat),
        boundaryHit idx ip pos = false →
        sk.dec (file.drop pos) = some (key, rest1) →
        sv.dec (file.drop (file.length - rest1.length)) = none →
        scanLoop sk sv file idx ip k (fuel + 1) pos = .ok none) ∧
    (∀ (s : SSTable K V) (k : K),
        SSTable.getWith sn sk sv s none k = .error .ioErr) := by
  refine ⟨scanLoop_isOk sk sv, ?_, ?_, ?_⟩
  · intro file idx ip k fuel pos hbh hdk
    rw [scanLoop, if_neg (by simp [hbh]), hdk]
  · intro file idx ip k fuel pos key rest1 hbh hdk hdv
    rw [scanLoop, if_neg (by simp [hbh]), hdk]
    dsimp only
    by_cases hkey : key = k
    · rw [if_pos hkey, hdv]
    · rw [if_neg hkey]
      by_cases hklt : k < key
      · rw [if_pos hklt]
      · rw [if_neg hklt, hdv]
  · intro s k
    rfl

/-- C4: in a run lookup with no exact index match at insertion point p, the
lookup runs the linear scan with bracket index `p-1` (0 when p = 0),
starting right after the header when p = 0 and at index[p-1]'s offset
otherwise; the scan stops with absence as soon as the current offset
reaches or passes the next index entry's offset; and for a search key
strictly below every key of the buffer the lookup reports absence, never a
value for a different key. -/
theorem scan_bracketing [LinearOrder K] (sn : SerDe Nat) (sk : SerDe K)
    (sv : SerDe V) :
    (∀ (t : SSTable K V) (file : List Nat) (k : K) (cr : Nat × List Nat)
        (p : Nat), sn.dec file = some cr →
        binSearchFrom k t.index 0 = .error p →
        SSTable.getWith sn sk sv t (some file) k =
          scanLoop sk sv file t.index (if p = 0 then 0 else p - 1) k
            (file.length + 1)
            (if p = 0 then file.length - cr.2.length
              else
                match t.index[p - 1]? with
                | some e => e.2
                | none => file.length - cr.2.length)) ∧
    (∀ (file : List Nat) (idx : List (K × Nat)) (ip : Nat) (k : K)
        (e : K × Nat) (fuel pos : Nat), idx[ip + 1]? = some e → e.2 ≤ pos →
        scanLoop sk sv file idx ip k (fuel + 1) pos = .ok none) ∧
    (∀ (m : MemTable K V) (p : String) (k : K), sortedKV m.data →
        (∀ e ∈ m.data, k < e.1) →
        SSTable.get sn sk sv (SSTable.from_memtable sn sk sv m p) k =
          .ok none) := by
  refine ⟨?_, ?_, ?_⟩
  · intro t file k cr p hdn hbs
    rw [SSTable.getWith]
    rw [hdn]
    dsimp only
    rw [hbs]
  · intro file idx ip k e fuel pos he hle
    rw [scanLoop, if_pos (by rw [boundaryHit_some he pos]; simpa using hle)]
  · intro m p k hsort hbelow
    rw [run_lookup_matches_buffer sn sk sv m hsort p k, MemTable.get,
      assocGet_eq_none_of_forall_lt k m.data hbelow]

/-- C5: each put with the (total) serialized sizes returns the byte length
of that call's key plus value; the size counter after any sequence of puts
on a fresh buffer is the sum of those returned lengths (overwrites are not
subtracted); and the counter never decreases across a put, for arbitrary
size functions. -/
theorem memtable_size_accounting [LinearOrder K] (sk : SerDe K)
    (sv : SerDe V) :
    (∀ (m : MemTable K V) (k : K) (v : V),
        (MemTable.put (serSize sk) (serSize sv) m k v).2 =
          .ok ((sk.enc k).length + (sv.enc v).length)) ∧
    (∀ ops : List (K × V),
        (applyPuts sk sv ops (MemTable.new : MemTable K V)).size =
          (ops.map (fun e => (sk.enc e.1).length + (sv.enc e.2).length)).sum) ∧
    (∀ (szK : K → Option Nat) (szV : V → Option Nat) (m : MemTable K V)
        (k : K) (v : V),
        m.size ≤ (MemTable.put szK szV m k v).1.size) := by
  refine ⟨fun m k v => rfl, ?_, ?_⟩
  · intro ops
    rw [MemTable.size, applyPuts_size sk sv ops (MemTable.new : MemTable K V)]
    simp [MemTable.new]
  · intro szK szV m k v
    rw [MemTable.put]
    cases szK k with
    | none => exact le_refl _
    | some ks =>
      dsimp only
      cases szV v with
      | none => exact le_refl _
      | some vs =>
        show m.size_bytes ≤ m.size_bytes + (ks + vs)
        omega

/-- C6: insert first writes into the live buffer, then flushes before
returning if and only if the buffer's counter has reached the threshold;
below the threshold the run list and the run-id counter are unchanged. -/
theorem insert_flush_threshold [LinearOrder K] (sn : SerDe Nat)
    (sk : SerDe K) (sv : SerDe V) :
    (∀ (t : LSMTree K V) (k : K) (v : V),
        (memAfterPut sk sv t.memtable k v).size ≥
            t.config.memtable_size_threshold →
        LSMTree.insert sn sk sv t k v =
          (LSMTree.flush_memtable sn sk sv
            { t with memtable := memAfterPut sk sv t.memtable k v }, .ok ())) ∧
    (∀ (t : LSMTree K V) (k : K) (v : V),
        (memAfterPut sk sv t.memtable k v).size <
            t.config.memtable_size_threshold →
        LSMTree.insert sn sk sv t k v =
            ({ t with memtable := memAfterPut sk sv t.memtable k v }, .ok ()) ∧
          (LSMTree.insert sn sk sv t k v).1.sstables = t.sstables ∧
          (LSMTree.insert sn sk sv t k v).1.sstable_id = t.sstable_id) := by
  constructor
  · intro t k v hth
    rw [insert_total_eq, if_pos hth]
  · intro t k v hth
    have h2 : ¬ ((memAfterPut sk sv t.memtable k v).size ≥
        t.config.memtable_size_threshold) := by omega
    refine ⟨by rw [insert_total_eq, if_neg h2], ?_, ?_⟩
    · rw [insert_total_eq, if_neg h2]
    · rw [insert_total_eq, if_neg h2]

/-- C7: flush replaces the live buffer by a new empty one, builds a run
from the displaced buffer at the path derived from the storage location and
the current run-id zero-padded to width 6, appends it at the end of the run
list, and increments the run-id; concrete paddings pin the fixed width. -/
theorem flush_behavior [LinearOrder K] (sn : SerDe Nat) (sk : SerDe K)
    (sv : SerDe V) :
    (∀ t : LSMTree K V,
        LSMTree.flush_memtable sn sk sv t =
          ⟨MemTable.new,
            t.sstables ++ [SSTable.from_memtable sn sk sv t.memtable
              (sstablePath t.config.data_dir t.sstable_id)],
            t.sstable_id + 1, t.config⟩) ∧
    (∀ (dir : String) (id : Nat),
        sstablePath dir id = dir ++ "/sstable_" ++ pad6 id ++ ".db") ∧
    pad6 0 = "000000" ∧ pad6 42 = "000042" ∧ pad6 123456 = "123456" := by
  refine ⟨fun t => rfl, fun dir id => rfl, ?_, ?_, ?_⟩ <;> decide

/-- C8: no operation of the store — coordinator get and insert, buffer put,
run lookup (with any open result) — ever returns the `KeyNotFound` error
variant: a missing key is always the explicit absence value `Ok(None)`. -/
theorem keyNotFound_unreachable [LinearOrder K] (sn : SerDe Nat)
    (sk : SerDe K) (sv : SerDe V) :
    (∀ (t : LSMTree K V) (k : K),
        LSMTree.get sn sk sv t k ≠ .error .keyNotFound) ∧
    (∀ (t : LSMTree K V) (k : K) (v : V),
        (LSMTree.insert sn sk sv t k v).2 ≠ .error .keyNotFound) ∧
    (∀ (szK : K → Option Nat) (szV : V → Option Nat) (m : MemTable K V)
        (k : K) (v : V),
        (MemTable.put szK szV m k v).2 ≠ .error .keyNotFound) ∧
    (∀ (s : SSTable K V) (fo : Option (List Nat)) (k : K),
        SSTable.getWith sn sk sv s fo k ≠ .error .keyNotFound) := by
  refine ⟨?_, ?_, ?_, getWith_ne_keyNotFound sn sk sv⟩
  · intro t k
    rw [LSMTree.get]
    cases MemTable.get t.memtable k with
    | some v => simp
    | none => exact tablesGet_ne_keyNotFound sn sk sv t.sstables.reverse k
  · intro t k v
    rw [insert_total_eq]
    by_cases hth : (memAfterPut sk sv t.memtable k v).size ≥
        t.config.memtable_size_threshold
    · rw [if_pos hth]; simp
    · rw [if_neg hth]; simp
  · intro szK szV m k v
    rw [MemTable.put]
    cases szK k with
    | none => simp
    | some ks =>
      dsimp only
      cases szV v with
      | none => simp
      | some vs => simp

/-- C9: if a put on the buffer fails (a serialized-size call fails), the
buffer is left entirely unchanged: same contents, same size counter. -/
theorem put_failure_leaves_buffer_unchanged [LinearOrder K]
    (szK : K → Option Nat) (szV : V → Option Nat) (m : MemTable K V) (k : K)
    (v : V) (e : LSMError) (h : (MemTable.put szK szV m k v).2 = .error e) :
    (MemTable.put szK szV m k v).1 = m := by
  rw [MemTable.put] at h ⊢
  cases hk2 : szK k with
  | none => rfl
  | some ks =>
    rw [hk2] at h
    dsimp only at h ⊢
    cases hv2 : szV v with
    | none => rfl
    | some vs =>
      rw [hv2] at h
      dsimp only at h
      exact absurd h (by simp)

/-- Witness for C9: a failing serializer leaves the concrete buffer
[(5, 6)] with counter 3 untouched. -/
theorem put_failure_witness :
    (MemTable.put (fun _ : Nat => (none : Option Nat))
        (fun _ : Nat => (none : Option Nat))
        (⟨[(5, 6)], 3⟩ : MemTable Nat Nat) 1 2).1 =
      (⟨[(5, 6)], 3⟩ : MemTable Nat Nat) :=
  put_failure_leaves_buffer_unchanged (fun _ => none) (fun _ => none)
    (⟨[(5, 6)], 3⟩ : MemTable Nat Nat) 1 2 .serErr rfl

/-- C10: in every store state reachable from a fresh store by inserts (get
takes the state by shared reference and returns none, so it cannot change
it), the run-id counter equals the number of runs in the list. -/
theorem run_id_equals_run_count [LinearOrder K] (sn : SerDe Nat)
    (sk : SerDe K) (sv : SerDe V) (ops : List (K × V)) (cfg : Config) :
    (applyInserts sn sk sv ops (LSMTree.with_config cfg : LSMTree K V)).sstable_id =
      (applyInserts sn sk sv ops
        (LSMTree.with_config cfg : LSMTree K V)).sstables.length :=
  applyInserts_id_eq_len sn sk sv ops _ rfl

end LSM
